import Mathlib

/-!
Verification of `plot_hdf5_stats.py` and `complexity_plot.py` from the
`socrates-neurons` repository: a shallow embedding of the channel-statistics
core (sample/spike/bit counting, range filtering, aggregation, normalization,
channel selection, and the control flow of the `main` entry point), together
with theorems settling the specification's claims about it.

Numeric conventions of the embedding:
* machine floats are modelled by `Fval`: an exact rational together with the
  three IEEE non-finite values (`+inf`, `-inf`, `nan`); division follows the
  IEEE zero/infinity rules, with finite arithmetic exact;
* event timestamps and time bounds are rationals, with `WithTop ℚ` for an
  unbounded upper limit (`t1 = float('inf')` in the source);
* analog sample values are real numbers, so that mean / standard deviation
  (`np.mean` / `np.std`, population form) keep their textbook meaning.

Helper functions imported from the repository's `nevroutil` module
(`split_where`, `digitize`, `get_timestamp_data_in_range`,
`get_stream_data_in_range`) are not part of the provided sources; they are
modelled from the specification's contracts and carry a doc comment saying so.
-/

namespace SocratesNeurons

/-- A floating-point value as used by the numpy arrays in the source:
an exact finite rational or one of the IEEE non-finite values. -/
inductive Fval : Type
  | finite (q : ℚ)
  | posInf
  | negInf
  | nan
deriving DecidableEq, Repr

/-- `Fval.isFinite` holds exactly on finite values. -/
def Fval.isFinite : Fval → Bool
  | .finite _ => true
  | _ => false

/-- IEEE-style division on `Fval` (the `/` of numpy's true division):
finite division is exact rational division, division by zero produces a
signed infinity (or `nan` for `0/0`), and non-finite operands follow the
IEEE rules.  No negative zero is modelled (none arises in this program). -/
def fdiv : Fval → Fval → Fval
  | .nan, _ => .nan
  | _, .nan => .nan
  | .finite a, .finite b =>
      if b = 0 then
        if a > 0 then .posInf else if a < 0 then .negInf else .nan
      else .finite (a / b)
  | .finite _, .posInf => .finite 0
  | .finite _, .negInf => .finite 0
  | .posInf, .finite b => if b < 0 then .negInf else .posInf
  | .negInf, .finite b => if b < 0 then .posInf else .negInf
  | .posInf, .posInf => .nan
  | .posInf, .negInf => .nan
  | .negInf, .posInf => .nan
  | .negInf, .negInf => .nan

/-- A numpy array of floats as used by this program: either one- or
two-dimensional (`len(a.shape)` is 1 or 2). -/
inductive Arr : Type
  | d1 (v : List Fval)
  | d2 (m : List (List Fval))
deriving DecidableEq, Repr

/-- `normalize_stats` from `plot_hdf5_stats.py` (lines 95–98):
if the table has more dimensions than the divisor, the divisor is reshaped
to a column (`reshape((-1, 1))`) — so a 2-D table is divided row-wise by a
1-D divisor, one divisor entry per file row; otherwise the division is
element-wise under numpy broadcasting (for a 1-D table and 2-D divisor,
the table row is broadcast across the divisor's rows). -/
def normalize_stats (stats_data divisor : Arr) : Arr :=
  match stats_data, divisor with
  | .d2 m, .d1 v => .d2 (List.zipWith (fun row d => row.map (fun x => fdiv x d)) m v)
  | .d1 a, .d1 v => .d1 (List.zipWith fdiv a v)
  | .d2 m, .d2 v => .d2 (List.zipWith (List.zipWith fdiv) m v)
  | .d1 a, .d2 v => .d2 (v.map (fun row => List.zipWith fdiv a row))

/-- Modelled from the spec: `nevroutil.split_where` (not among the provided
sources).  Contract (§4.2): given a sequence of states, return the index of
every position `i ≥ 1` where `states[i] ≠ states[i-1]` — the boundaries
between consecutive runs of identical states; inputs of length 0 or 1 give
the empty sequence.  `splitWhereAux s i` emits those boundaries with indices
offset by `i`. -/
def splitWhereAux {α : Type} [DecidableEq α] : List α → ℕ → List ℕ
  | a :: b :: rest, i =>
      (if a ≠ b then [i + 1] else []) ++ splitWhereAux (b :: rest) (i + 1)
  | _, _ => []

/-- Modelled from the spec: `nevroutil.split_where`, see `splitWhereAux`. -/
def split_where {α : Type} [DecidableEq α] (states : List α) : List ℕ :=
  splitWhereAux states 0

/-- A 2-D numpy/HDF5 buffer of sample values, as exposed by
`stream.channel_data` (shape `(channels, samples)`); `entry r j` is the value
at row `r`, sample index `j`. -/
structure Array2D where
  shape0 : ℕ
  shape1 : ℕ
  entry : ℕ → ℕ → ℝ

instance : Inhabited Array2D := ⟨⟨0, 0, fun _ _ => 0⟩⟩

/-- One analog stream of a recording: the 2-D sample buffer, the mapping from
channel id to buffer row (a channel with no stream data has no row), and the
fixed sample rate from which a sample index derives its time. -/
structure AnalogStream where
  channel_data : Array2D
  channelRow : ℕ → Option ℕ
  rate : ℚ

instance : Inhabited AnalogStream := ⟨⟨default, fun _ => none, 1⟩⟩

/-- One timestamp stream: `timestamp_entity` associates each channel id that
has recorded events with its ordered sequence of event times. -/
structure TimestampStream where
  timestamp_entity : List (ℕ × List ℚ)

instance : Inhabited TimestampStream := ⟨⟨[]⟩⟩

/-- One recording of a raw-data file, with its analog and timestamp streams
(the program always uses index 0 of each). -/
structure Recording where
  analog_streams : List AnalogStream
  timestamp_streams : List TimestampStream

instance : Inhabited Recording := ⟨⟨[], []⟩⟩

/-- A loaded raw-data file (`McsPy.McsData.RawData`); the program always uses
`recordings[0]`. -/
structure RawData where
  recordings : List Recording

/-- `sample_count` from `plot_hdf5_stats.py` (lines 49–55): the sample count
over all channels, read as `shape[1]` of the analog stream's 2-D buffer. -/
def sample_count (raw_data : RawData) : ℕ :=
  let r := raw_data.recordings.headI
  let stream := r.analog_streams.headI
  stream.channel_data.shape1

/-- Modelled from the spec: `nevroutil.get_timestamp_data_in_range` (not among
the provided sources).  Contract (§4.3): for each requested channel, the
subset of recorded event timestamps within `[t0, t1)`; channels with no
recorded data are absent from the result mapping. -/
def get_timestamp_data_in_range (te : List (ℕ × List ℚ)) (channels : List ℕ)
    (t0 : ℚ) (t1 : WithTop ℚ) : ℕ → Option (List ℚ) :=
  fun ch =>
    if ch ∈ channels then
      (te.lookup ch).map (List.filter (fun t => decide (t0 ≤ t ∧ (t : WithTop ℚ) < t1)))
    else none

/-- `spike_count` from `plot_hdf5_stats.py` (lines 57–68): one entry per
channel of the requested set, the number of in-range timestamp events for
that channel, left at 0 for channels missing from the range-filter result. -/
def spike_count (raw_data : RawData) (channels : List ℕ)
    (t0 : ℚ) (t1 : WithTop ℚ) : List ℚ :=
  let r := raw_data.recordings.headI
  let te := r.timestamp_streams.headI.timestamp_entity
  let timestamps := get_timestamp_data_in_range te channels t0 t1
  channels.map (fun ch =>
    match timestamps ch with
    | some l => (l.length : ℚ)
    | none => 0)

/-- `np.mean`: the arithmetic mean of a sequence of sample values
(`sum / length`; numpy's mean of an empty sequence is NaN, which never
reaches a comparison in this program — the empty case short-circuits to an
empty digitized sequence). -/
noncomputable def npMean (xs : List ℝ) : ℝ := xs.sum / xs.length

/-- `np.std` in its default population form: the square root of the mean
squared deviation from the mean. -/
noncomputable def npStd (xs : List ℝ) : ℝ :=
  Real.sqrt (npMean (xs.map (fun x => (x - npMean xs) ^ 2)))

/-- The three discrete states produced by digitization (§4.1): below the low
threshold, between the thresholds, above the high threshold. -/
inductive Level : Type
  | LOW
  | MID
  | HIGH
deriving DecidableEq, Repr

/-- Modelled from the spec: `nevroutil.digitize` (not among the provided
sources).  Contract (§4.1): value < low threshold ↦ LOW; value > high
threshold ↦ HIGH; otherwise MID; output has the input's length and an empty
input yields an empty output. -/
noncomputable def digitize (values : List ℝ) (low_threshold high_threshold : ℝ) :
    List Level :=
  values.map (fun v =>
    if v < low_threshold then .LOW
    else if v > high_threshold then .HIGH
    else .MID)

/-- Modelled from the spec: `nevroutil.get_stream_data_in_range` (not among
the provided sources).  Contract (§4.3): for each requested channel, the
slice of sample values whose sample-index-derived time (index divided by the
sample rate) falls within `[t0, t1)`; channels with no stream data are
absent from the result mapping. -/
def get_stream_data_in_range (stream : AnalogStream) (channels : List ℕ)
    (t0 : ℚ) (t1 : WithTop ℚ) : ℕ → Option (List ℝ) :=
  fun ch =>
    if ch ∈ channels then
      (stream.channelRow ch).map (fun r =>
        ((List.range stream.channel_data.shape1).filter
          (fun (j : ℕ) => decide (t0 ≤ (j : ℚ) / stream.rate ∧
            ((((j : ℚ) / stream.rate : ℚ) : WithTop ℚ) < t1)))).map
          (fun j => stream.channel_data.entry r j))
    else none

/-- `bit_count` from `plot_hdf5_stats.py` (lines 70–90): one entry per
channel of the requested set; a channel present in the range-filter result
contributes the number of run boundaries of its digitized in-range slice
(thresholds mean ∓ 5·std of that slice), a channel absent from the result
keeps 0. -/
noncomputable def bit_count (raw_data : RawData) (channels : List ℕ)
    (t0 : ℚ) (t1 : WithTop ℚ) : List ℝ :=
  let r := raw_data.recordings.headI
  let stream := r.analog_streams.headI
  let stream_data := get_stream_data_in_range stream channels t0 t1
  channels.map (fun ch =>
    match stream_data ch with
    | some data =>
        let mean := npMean data
        let std := npStd data
        let th_lo := mean - 5 * std
        let th_hi := mean + 5 * std
        let bits := digitize data th_lo th_hi
        let idx := split_where bits
        (idx.length : ℝ)
    | none => 0)

/-- The concrete recording of the spec's `spike_count` example: timestamp
data `{0: [1,2,3], 1: [], 2: [5]}` and no analog stream. -/
def spikeExampleRaw : RawData :=
  { recordings := [{ analog_streams := [],
                     timestamp_streams :=
                       [{ timestamp_entity := [(0, [1, 2, 3]), (1, []), (2, [5])] }] }] }

/-- Modelled from the spec: the aggregation step of `main`
(`plot_hdf5_stats.py` lines 174–175), which is `np.array` over the
accumulated per-file vectors and thus lives in the external numpy library.
Contract (§4.5): stack the per-file statistic vectors row-wise in input
order into a files × channels table; vectors of mismatched length fault
with a shape-mismatch error instead of producing a table. -/
def aggregate (vectors : List (List ℚ)) : Except String (List (List ℚ)) :=
  match vectors with
  | [] => .ok []
  | v :: rest =>
      if rest.all (fun w => w.length == v.length) then .ok (v :: rest)
      else .error "shape mismatch"

/-- The statistic names `main` accepts (`stats_available`,
`plot_hdf5_stats.py` line 47). -/
def stats_available : List String :=
  ["sample_count", "spike_count", "bit_count", "mean", "std"]

/-- Channel selection of `main` (`plot_hdf5_stats.py` lines 138–149): the
parsed `--channels` list as a set when the flag was given, otherwise the
full hard-coded 60-channel device range; the parsed `--exclude-channels`
set is then subtracted from that inclusion set. -/
def selectChannels (channels_arg exclude_arg : Option (List ℕ)) : Finset ℕ :=
  let channels : Finset ℕ :=
    match channels_arg with
    | some l => l.toFinset
    | none => Finset.range 60
  match exclude_arg with
  | some l => channels \ l.toFinset
  | none => channels

/-- The exclusion set used by `selectChannels`: the parsed
`--exclude-channels` flag as a set, empty when the flag is absent. -/
def excludeSet (exclude_arg : Option (List ℕ)) : Finset ℕ :=
  match exclude_arg with
  | some l => l.toFinset
  | none => ∅

/-- An observable event of entry point B's `main`: loading the `i`-th input
file, computing one named statistic for it, rendering the plot, or exiting
the process with an uncaught error. -/
inductive Ev : Type
  | loadRecording (i : ℕ)
  | computeStat (stat : String) (i : ℕ)
  | plot
  | errorExit (e : String)
deriving DecidableEq, Repr

/-- The events of one iteration of `main`'s file loop
(`plot_hdf5_stats.py` lines 151–169): the recording is loaded, then
`sample_count` is computed when selected or when normalization is on, then
`spike_count` and `bit_count` when selected. -/
def fileEvents (stats : List String) (normalize : Bool) (i : ℕ) : List Ev :=
  [Ev.loadRecording i]
    ++ (if "sample_count" ∈ stats ∨ normalize = true then
          [Ev.computeStat "sample_count" i] else [])
    ++ (if "spike_count" ∈ stats then [Ev.computeStat "spike_count" i] else [])
    ++ (if "bit_count" ∈ stats then [Ev.computeStat "bit_count" i] else [])

/-- Control-flow skeleton of `main` (`plot_hdf5_stats.py` lines 129–195), as
the sequence of its observable events: the `assert` on the selected
statistic names fires before the file loop; the loop then processes every
input file; only after the loop does the mode dispatch run, raising
`NotImplementedError` for any mode other than `total`. -/
def mainEvents (stats : List String) (mode : String) (normalize : Bool)
    (nfiles : ℕ) : List Ev :=
  if ¬ ∀ s ∈ stats, s ∈ stats_available then [Ev.errorExit "AssertionError"]
  else
    ((List.range nfiles).flatMap (fileEvents stats normalize))
      ++ (if mode = "total" then [Ev.plot]
          else [Ev.errorExit "NotImplementedError"])

/-- One iteration of `main`'s normalization loop (`plot_hdf5_stats.py`
lines 180–184): a `spike_count` or `bit_count` entry of the statistic
dictionary is replaced by its quotient with the accumulated `sample_count`
array; any other statistic name leaves the dictionary unchanged. -/
def normalizeStep (acc : String → Arr) (k : String) : String → Arr :=
  if k = "spike_count" ∨ k = "bit_count" then
    Function.update acc k (normalize_stats (acc k) (acc "sample_count"))
  else acc

/-- The normalization step of `main` (`plot_hdf5_stats.py` lines 179–184):
fold `normalizeStep` over the selected statistic names, mutating the
statistic dictionary in place. -/
def applyNormalize (stats : List String) (stats_data : String → Arr) :
    String → Arr :=
  stats.foldl normalizeStep stats_data

/-- C1 (counterexample): the specification's worked example is *not* what the
code computes: `normalize_stats([[10,20],[5,5]], [10,5])` does not return
`[[1,4],[1,1]]` — the divisor is reshaped to a column, so row 0 is divided by
10 throughout, giving `20/10 = 2` (not `4`) at position (0,1). -/
theorem normalize_example_claim_false :
    normalize_stats
      (.d2 [[.finite 10, .finite 20], [.finite 5, .finite 5]])
      (.d1 [.finite 10, .finite 5]) ≠
    .d2 [[.finite 1, .finite 4], [.finite 1, .finite 1]] := by
  norm_num [normalize_stats, fdiv]

/-- C1 (amended): for the table `[[10,20],[5,5]]` and the per-file divisor
vector `[10,5]`, `normalize_stats` reshapes the 1-D divisor to one divisor
per file row and divides element-wise, returning `[[1,2],[1,1]]`. -/
theorem normalize_example_value :
    normalize_stats
      (.d2 [[.finite 10, .finite 20], [.finite 5, .finite 5]])
      (.d1 [.finite 10, .finite 5]) =
    .d2 [[.finite 1, .finite 2], [.finite 1, .finite 1]] := by
  norm_num [normalize_stats, fdiv]

/-- C5: `normalize_stats` on a 2-D table of finite values and a 1-D divisor
never fails: it always returns a table, in which every position whose row
divisor is zero holds a non-finite value, and every other position holds the
ordinary quotient. -/
theorem normalize_zero_divisor (m : List (List ℚ)) (v : List ℚ) (i j : ℕ)
    (hi : i < m.length) (hiv : i < v.length) (hj : j < m[i].length) :
    ∃ out : List (List Fval),
      normalize_stats (.d2 (m.map (fun r => r.map Fval.finite)))
          (.d1 (v.map Fval.finite)) = .d2 out ∧
      (v[i] = 0 → ((out.getD i []).getD j .nan).isFinite = false) ∧
      (v[i] ≠ 0 → (out.getD i []).getD j .nan = .finite (m[i][j] / v[i])) := by
  refine ⟨_, rfl, ?_, ?_⟩ <;> intro hv
  · have hlen : i < (List.zipWith (fun row d => row.map (fun x => fdiv x d))
        (m.map (fun r => r.map Fval.finite)) (v.map Fval.finite)).length := by
      simpa using lt_min (by simpa using hi) (by simpa using hiv)
    rw [List.getD_eq_getElem _ _ hlen]
    have hrow : j < (m[i].map Fval.finite).length := by simpa using hj
    simp only [List.getElem_zipWith, List.getElem_map]
    rw [List.getD_eq_getElem]
    · simp [fdiv, hv]
      rcases lt_trichotomy (m[i][j] : ℚ) 0 with h | h | h
      · simp [h, not_lt.mpr h.le, Fval.isFinite]
      · simp [h, Fval.isFinite]
      · simp [h, not_lt.mpr h.le, Fval.isFinite]
    · simpa using hj
  · have hlen : i < (List.zipWith (fun row d => row.map (fun x => fdiv x d))
        (m.map (fun r => r.map Fval.finite)) (v.map Fval.finite)).length := by
      simpa using lt_min (by simpa using hi) (by simpa using hiv)
    rw [List.getD_eq_getElem _ _ hlen]
    simp only [List.getElem_zipWith, List.getElem_map]
    rw [List.getD_eq_getElem]
    · simp [fdiv, hv]
    · simpa using hj

/-- C5 (witness): at the concrete table `[[1]]` with divisor `[0]`,
`normalize_stats` returns a table whose sole entry is non-finite. -/
theorem normalize_zero_divisor_witness :
    ∃ out : List (List Fval),
      normalize_stats (.d2 [[.finite 1]]) (.d1 [.finite 0]) = .d2 out ∧
      ((out.getD 0 []).getD 0 .nan).isFinite = false := by
  obtain ⟨out, h1, h2, _⟩ :=
    normalize_zero_divisor [[1]] [0] 0 0 (by norm_num) (by norm_num) (by norm_num)
  exact ⟨out, by simpa using h1, h2 (by norm_num)⟩

/-- C3: `bit_count` returns one entry per channel of the requested set; a
channel whose in-range slice is absent or empty keeps 0, and a channel with
a non-empty slice gets the number of run boundaries of the slice digitized
with thresholds `mean - 5*std` and `mean + 5*std` of that slice. -/
theorem bit_count_spec (raw : RawData) (channels : List ℕ)
    (t0 : ℚ) (t1 : WithTop ℚ) :
    (bit_count raw channels t0 t1).length = channels.length ∧
    ∀ i : ℕ, i < channels.length →
      (bit_count raw channels t0 t1).getD i 0 =
        match get_stream_data_in_range (raw.recordings.headI.analog_streams.headI)
            channels t0 t1 (channels.getD i 0) with
        | none => 0
        | some [] => 0
        | some data =>
            ((split_where (digitize data (npMean data - 5 * npStd data)
              (npMean data + 5 * npStd data))).length : ℝ) := by
  refine ⟨by simp [bit_count], ?_⟩
  intro i hi
  have hgd : channels.getD i 0 = channels[i] := List.getD_eq_getElem _ _ hi
  rw [bit_count]
  rw [List.getD_eq_getElem _ _ (by simpa using hi), List.getElem_map, hgd]
  cases get_stream_data_in_range (raw.recordings.headI.analog_streams.headI)
      channels t0 t1 channels[i] with
  | none => rfl
  | some data =>
    cases data with
    | nil => simp [digitize, split_where, splitWhereAux]
    | cons a rest => rfl

/-- C3 (witness): `bit_count_spec` applied to two concrete recordings with a
2-sample buffer — one whose channel 0 has no buffer row (absent slice), one
whose channel 0 holds the constant slice `[0, 0]` (no transitions) — gives
the concrete statistic 0 in both cases. -/
theorem bit_count_spec_witness :
    (bit_count { recordings := [{ analog_streams := [{ channel_data := ⟨1, 2, fun _ _ => 0⟩,
                                                       channelRow := fun _ => none,
                                                       rate := 1 }],
                                  timestamp_streams := [] }] } [0] 0 ⊤).getD 0 0 = 0 ∧
    (bit_count { recordings := [{ analog_streams := [{ channel_data := ⟨1, 2, fun _ _ => 0⟩,
                                                       channelRow := fun _ => some 0,
                                                       rate := 1 }],
                                  timestamp_streams := [] }] } [0] 0 ⊤).getD 0 0 = 0 := by
  constructor
  · have h := (bit_count_spec
        { recordings := [{ analog_streams := [{ channel_data := ⟨1, 2, fun _ _ => 0⟩,
                                                channelRow := fun _ => none,
                                                rate := 1 }],
                           timestamp_streams := [] }] } [0] 0 ⊤).2 0 (by decide)
    exact h.trans rfl
  · have h := (bit_count_spec
        { recordings := [{ analog_streams := [{ channel_data := ⟨1, 2, fun _ _ => 0⟩,
                                                channelRow := fun _ => some 0,
                                                rate := 1 }],
                           timestamp_streams := [] }] } [0] 0 ⊤).2 0 (by decide)
    have hs : get_stream_data_in_range
        ({ channel_data := ⟨1, 2, fun _ _ => 0⟩, channelRow := fun _ => some 0,
           rate := 1 } : AnalogStream) [0] 0 ⊤ 0 = some [0, 0] := by
      simp [get_stream_data_in_range, List.range_succ]
    rw [show get_stream_data_in_range
        ({ recordings := [{ analog_streams := [{ channel_data := ⟨1, 2, fun _ _ => 0⟩,
                                                 channelRow := fun _ => some 0,
                                                 rate := 1 }],
                            timestamp_streams := [] }] } :
          RawData).recordings.headI.analog_streams.headI [0] 0 ⊤ ([0].getD 0 0) =
        some [0, 0] from hs] at h
    norm_num [npMean, npStd, digitize, split_where, splitWhereAux] at h
    exact h

/-- C4: `spike_count` returns one entry per channel of the requested set;
the entry is the number of timestamp events of that channel within
`[t0, t1)` when the channel has recorded data, and 0 when the channel is
absent from the range-filter result; on the spec's example data
`{0: [1,2,3], 1: [], 2: [5]}` with `t0 = 0`, `t1 = ∞` it returns `[3, 0, 1]`
in channel order `{0, 1, 2}`. -/
theorem spike_count_spec :
    (∀ (raw : RawData) (channels : List ℕ) (t0 : ℚ) (t1 : WithTop ℚ),
      (spike_count raw channels t0 t1).length = channels.length ∧
      ∀ i : ℕ, i < channels.length →
        (spike_count raw channels t0 t1).getD i 0 =
          match (raw.recordings.headI.timestamp_streams.headI.timestamp_entity).lookup
              (channels.getD i 0) with
          | some l =>
              ((l.filter (fun t => decide (t0 ≤ t ∧ (t : WithTop ℚ) < t1))).length : ℚ)
          | none => 0) ∧
    spike_count spikeExampleRaw [0, 1, 2] 0 ⊤ = [3, 0, 1] := by
  refine ⟨fun raw channels t0 t1 => ⟨by simp [spike_count], ?_⟩, by decide⟩
  intro i hi
  have hgd : channels.getD i 0 = channels[i] := List.getD_eq_getElem _ _ hi
  have hmem : channels[i] ∈ channels := List.getElem_mem hi
  rw [spike_count]
  rw [List.getD_eq_getElem _ _ (by simpa using hi), List.getElem_map, hgd]
  rw [get_timestamp_data_in_range]
  simp only [if_pos hmem]
  cases (raw.recordings.headI.timestamp_streams.headI.timestamp_entity).lookup
      channels[i] with
  | none => rfl
  | some l => rfl

/-- C4 (witness): `spike_count_spec` applied to the example recording at
channel index 0 gives the concrete count 3. -/
theorem spike_count_spec_witness :
    (spike_count spikeExampleRaw [0, 1, 2] 0 ⊤).getD 0 0 = 3 := by
  have h := (spike_count_spec.1 spikeExampleRaw [0, 1, 2] 0 ⊤).2 0 (by decide)
  exact h.trans (by decide)

/-- C7: `sample_count` is the single scalar `shape[1]` of the analog
stream's sample buffer, and it depends on nothing else: any two raw-data
files whose analog buffers have the same sample dimension get the same
count, whatever their channel layout, sample values or timestamp data —
and no channel-set or time-range parameter exists in its signature. -/
theorem sample_count_global :
    (∀ raw : RawData,
      sample_count raw =
        raw.recordings.headI.analog_streams.headI.channel_data.shape1) ∧
    (∀ raw raw' : RawData,
      raw.recordings.headI.analog_streams.headI.channel_data.shape1 =
        raw'.recordings.headI.analog_streams.headI.channel_data.shape1 →
      sample_count raw = sample_count raw') :=
  ⟨fun _ => rfl, fun _ _ h => h⟩

/-- C7 (witness): two concrete raw-data files with a 7-sample analog buffer
but different channel layouts, sample values and timestamp data have equal
`sample_count`, namely 7. -/
theorem sample_count_global_witness :
    sample_count
      { recordings := [{ analog_streams := [{ channel_data := ⟨2, 7, fun _ _ => 0⟩,
                                              channelRow := fun r => some r,
                                              rate := 1 }],
                         timestamp_streams := [] }] } =
      sample_count
        { recordings := [{ analog_streams := [{ channel_data := ⟨60, 7, fun _ _ => 1⟩,
                                                channelRow := fun _ => none,
                                                rate := 2 }],
                           timestamp_streams := [{ timestamp_entity := [(0, [3])] }] }] } ∧
    sample_count
      { recordings := [{ analog_streams := [{ channel_data := ⟨2, 7, fun _ _ => 0⟩,
                                              channelRow := fun r => some r,
                                              rate := 1 }],
                         timestamp_streams := [] }] } = 7 :=
  ⟨sample_count_global.2 _ _ rfl, rfl⟩

/-- C9: `split_where` on any sequence of length 0 or 1 returns the empty
sequence of boundary indices. -/
theorem split_where_short {α : Type} [DecidableEq α] (s : List α)
    (h : s.length ≤ 1) : split_where s = [] := by
  match s with
  | [] => rfl
  | [_] => rfl
  | _ :: _ :: _ => simp at h

/-- C9 (witness): concrete instances of `split_where_short` at the empty
sequence and at a one-element sequence. -/
theorem split_where_short_witness :
    split_where ([] : List ℕ) = [] ∧ split_where [42] = [] :=
  ⟨split_where_short [] (by decide), split_where_short [42] (by decide)⟩

/-- C6: aggregation stacks per-file vectors row-wise in input order — three
vectors of length 4 give the table with exactly those three rows, of shape
(3, 4) — and any collection containing two vectors of different lengths
faults with a shape-mismatch error instead of producing a table. -/
theorem aggregate_spec :
    (∀ v₁ v₂ v₃ : List ℚ, v₁.length = 4 → v₂.length = 4 → v₃.length = 4 →
      aggregate [v₁, v₂, v₃] = .ok [v₁, v₂, v₃] ∧
      [v₁, v₂, v₃].length = 3 ∧ ∀ r ∈ [v₁, v₂, v₃], r.length = 4) ∧
    (∀ (vs : List (List ℚ)) (v w : List ℚ), v ∈ vs → w ∈ vs →
      v.length ≠ w.length → ∃ e, aggregate vs = .error e) := by
  constructor
  · intro v₁ v₂ v₃ h₁ h₂ h₃
    refine ⟨?_, rfl, ?_⟩
    · rw [aggregate, if_pos]
      simp [h₁, h₂, h₃]
    · intro r hr
      simp only [List.mem_cons, List.not_mem_nil, or_false] at hr
      rcases hr with h | h | h <;> subst h <;> assumption
  · intro vs v w hv hw hne
    cases vs with
    | nil => cases hv
    | cons u rest =>
      refine ⟨"shape mismatch", ?_⟩
      rw [aggregate, if_neg]
      intro hall
      simp only [List.all_eq_true, beq_iff_eq] at hall
      have hlen : ∀ x ∈ u :: rest, x.length = u.length := by
        intro x hx
        rcases List.mem_cons.mp hx with h | h
        · rw [h]
        · exact hall x h
      exact hne ((hlen v hv).trans (hlen w hw).symm)

/-- C6 (witness): three concrete length-4 vectors aggregate to the (3, 4)
table of their rows, and a concrete pair of vectors of lengths 2 and 3
faults with a shape error. -/
theorem aggregate_spec_witness :
    aggregate [[1, 2, 3, 4], [5, 6, 7, 8], [9, 10, 11, 12]] =
      .ok [[1, 2, 3, 4], [5, 6, 7, 8], [9, 10, 11, 12]] ∧
    ∃ e, aggregate [[1, 2], [1, 2, 3]] = .error e :=
  ⟨(aggregate_spec.1 [1, 2, 3, 4] [5, 6, 7, 8] [9, 10, 11, 12] rfl rfl rfl).1,
   aggregate_spec.2 [[1, 2], [1, 2, 3]] [1, 2] [1, 2, 3]
     (by simp) (by simp) (by decide)⟩

/-- C8: the active channel set of entry point B is the explicitly selected
set when given, otherwise the default device range `{0..59}`, with the
exclusion set subtracted only after the inclusion set is formed; duplicates
in the inclusion list collapse by set semantics. -/
theorem channel_selection_spec :
    (∀ (l : List ℕ) (e : Option (List ℕ)),
      selectChannels (some l) e = l.toFinset \ excludeSet e) ∧
    (∀ e : Option (List ℕ),
      selectChannels none e = Finset.range 60 \ excludeSet e) ∧
    (∀ (l : List ℕ) (e : Option (List ℕ)),
      selectChannels (some (l ++ l)) e = selectChannels (some l) e) := by
  refine ⟨fun l e => ?_, fun e => ?_, fun l e => ?_⟩
  · cases e with
    | some l2 => rfl
    | none => simp [selectChannels, excludeSet]
  · cases e with
    | some l2 => rfl
    | none => simp [selectChannels, excludeSet]
  · cases e with
    | some l2 => simp [selectChannels]
    | none => simp [selectChannels]

/-- C2 (counterexample): with the per-channel aggregation mode selected, one
input file and a valid statistic selection, the configuration error is *not*
detected eagerly: `main` loads the recording and computes its statistic
first, and only then raises `NotImplementedError`. -/
theorem per_channel_not_eager :
    mainEvents ["spike_count"] "per-channel" false 1 =
      [Ev.loadRecording 0, Ev.computeStat "spike_count" 0,
       Ev.errorExit "NotImplementedError"] ∧
    Ev.loadRecording 0 ∈ mainEvents ["spike_count"] "per-channel" false 1 := by
  decide

/-- C2 (amended): when entry point B is invoked with the per-channel
aggregation mode (and a valid statistic selection), every input file is
still loaded and processed; the mode is rejected only after the file loop,
with the `NotImplementedError` that ends the trace and makes the process
exit non-zero. -/
theorem per_channel_faults_after_processing (stats : List String)
    (normalize : Bool) (nfiles : ℕ)
    (hstats : ∀ s ∈ stats, s ∈ stats_available) :
    ∃ pre : List Ev,
      mainEvents stats "per-channel" normalize nfiles =
        pre ++ [Ev.errorExit "NotImplementedError"] ∧
      ∀ i < nfiles, Ev.loadRecording i ∈ pre := by
  refine ⟨(List.range nfiles).flatMap (fileEvents stats normalize), ?_, ?_⟩
  · rw [mainEvents, if_neg (not_not_intro hstats),
      if_neg (by decide : ¬("per-channel" = "total"))]
  · intro i hi
    exact List.mem_flatMap.mpr
      ⟨i, List.mem_range.mpr hi, by simp [fileEvents]⟩

/-- C2 (witness): `per_channel_faults_after_processing` at the concrete
invocation with statistic `spike_count` and one input file: the trace ends
in the `NotImplementedError` exit and file 0 was loaded before it. -/
theorem per_channel_faults_after_processing_witness :
    ∃ pre : List Ev,
      mainEvents ["spike_count"] "per-channel" false 1 =
        pre ++ [Ev.errorExit "NotImplementedError"] ∧
      Ev.loadRecording 0 ∈ pre := by
  obtain ⟨pre, h1, h2⟩ :=
    per_channel_faults_after_processing ["spike_count"] false 1 (by decide)
  exact ⟨pre, h1, h2 0 (by decide)⟩

theorem normalizeStep_ne (acc : String → Arr) (a k : String) (h : k ≠ a) :
    normalizeStep acc a k = acc k := by
  by_cases ha : a = "spike_count" ∨ a = "bit_count"
  · rw [normalizeStep, if_pos ha]
    exact Function.update_noteq h _ _
  · rw [normalizeStep, if_neg ha]

theorem normalizeStep_notTarget (acc : String → Arr) (a k : String)
    (h1 : k ≠ "spike_count") (h2 : k ≠ "bit_count") :
    normalizeStep acc a k = acc k := by
  by_cases ha : a = "spike_count" ∨ a = "bit_count"
  · refine normalizeStep_ne acc a k ?_
    rcases ha with ha | ha <;> rw [ha]
    · exact h1
    · exact h2
  · rw [normalizeStep, if_neg ha]

theorem applyNormalize_not_mem (stats : List String) (k : String) :
    ∀ sd : String → Arr, k ∉ stats → applyNormalize stats sd k = sd k := by
  induction stats with
  | nil => intro sd _; rfl
  | cons a rest ih =>
      intro sd h
      have hka : k ≠ a := fun he => h (he ▸ List.mem_cons_self a rest)
      have hkr : k ∉ rest := fun hm => h (List.mem_cons_of_mem a hm)
      show applyNormalize rest (normalizeStep sd a) k = sd k
      rw [ih _ hkr, normalizeStep_ne _ _ _ hka]

theorem applyNormalize_frame (stats : List String) (k : String)
    (h1 : k ≠ "spike_count") (h2 : k ≠ "bit_count") :
    ∀ sd : String → Arr, applyNormalize stats sd k = sd k := by
  induction stats with
  | nil => intro sd; rfl
  | cons a rest ih =>
      intro sd
      show applyNormalize rest (normalizeStep sd a) k = sd k
      rw [ih _, normalizeStep_notTarget _ _ _ h1 h2]

theorem applyNormalize_target (stats : List String) (k : String)
    (hk : k = "spike_count" ∨ k = "bit_count") :
    ∀ sd : String → Arr, stats.count k = 1 →
      applyNormalize stats sd k =
        normalize_stats (sd k) (sd "sample_count") := by
  induction stats with
  | nil => intro sd h; simp at h
  | cons a rest ih =>
      intro sd h
      show applyNormalize rest (normalizeStep sd a) k = _
      by_cases hak : a = k
      · subst hak
        have hnot : a ∉ rest := by
          rw [List.count_cons_self] at h
          exact List.count_eq_zero.mp (by omega)
        rw [applyNormalize_not_mem rest a _ hnot, normalizeStep, if_pos hk,
          Function.update_same]
      · have hcount : rest.count k = 1 := by
          rwa [List.count_cons_of_ne (fun he => hak he.symm)] at h
        rw [ih _ hcount,
          normalizeStep_ne _ _ _ (fun he => hak he.symm),
          normalizeStep_notTarget _ _ _ (by decide) (by decide)]

/-- C10: the normalization step of `main` divides exactly the `spike_count`
and `bit_count` entries of the statistic dictionary by the accumulated
`sample_count` array: any other key — `sample_count` itself included — and
any key not among the selected statistics is left unchanged. -/
theorem normalize_only_spike_and_bit (stats : List String)
    (sd : String → Arr) :
    (∀ k : String, k ≠ "spike_count" → k ≠ "bit_count" →
      applyNormalize stats sd k = sd k) ∧
    (∀ k : String, k ∉ stats → applyNormalize stats sd k = sd k) ∧
    (∀ k : String, (k = "spike_count" ∨ k = "bit_count") →
      stats.count k = 1 →
      applyNormalize stats sd k =
        normalize_stats (sd k) (sd "sample_count")) :=
  ⟨fun k h1 h2 => applyNormalize_frame stats k h1 h2 sd,
   fun k h => applyNormalize_not_mem stats k sd h,
   fun k hk h => applyNormalize_target stats k hk sd h⟩

/-- C10 (witness): for the concrete selection `[spike_count, sample_count]`
and a dictionary holding the table `[[4]]` at `spike_count` and the counts
`[2]` at `sample_count`, normalization divides the `spike_count` table to
`[[2]]` and leaves the `sample_count` and `bit_count` entries unchanged. -/
theorem normalize_only_spike_and_bit_witness :
    applyNormalize ["spike_count", "sample_count"]
      (fun k => if k = "spike_count" then Arr.d2 [[.finite 4]]
        else if k = "sample_count" then Arr.d1 [.finite 2] else Arr.d1 [])
      "spike_count" = Arr.d2 [[.finite 2]] ∧
    applyNormalize ["spike_count", "sample_count"]
      (fun k => if k = "spike_count" then Arr.d2 [[.finite 4]]
        else if k = "sample_count" then Arr.d1 [.finite 2] else Arr.d1 [])
      "sample_count" = Arr.d1 [.finite 2] ∧
    applyNormalize ["spike_count", "sample_count"]
      (fun k => if k = "spike_count" then Arr.d2 [[.finite 4]]
        else if k = "sample_count" then Arr.d1 [.finite 2] else Arr.d1 [])
      "bit_count" = Arr.d1 [] := by
  obtain ⟨hframe, hnotmem, htarget⟩ :=
    normalize_only_spike_and_bit ["spike_count", "sample_count"]
      (fun k => if k = "spike_count" then Arr.d2 [[.finite 4]]
        else if k = "sample_count" then Arr.d1 [.finite 2] else Arr.d1 [])
  refine ⟨?_, ?_, ?_⟩
  · have h := htarget "spike_count" (Or.inl rfl) (by decide)
    rw [if_neg (show ¬("sample_count" = "spike_count") by decide)] at h
    simp only [↓reduceIte] at h
    rw [h]
    norm_num [normalize_stats, fdiv]
  · rw [hframe "sample_count" (by decide) (by decide)]
    decide
  · rw [hnotmem "bit_count" (by decide)]
    decide

end SocratesNeurons
